import Mathlib

/-!
# Region quadtree: a shallow embedding of `src/region_qt.rs` and
# `src/region_qt/primitives.rs`

Pixel coordinates in the source are `u32`.  Every coordinate reachable from
`build` lies inside `[0, max(width, height)]`, far below `2^32` for any image
the `image` crate can hand out (and `u32` addition panics on overflow in debug
builds rather than wrapping), so coordinate arithmetic is embedded over `Nat`.
Color channels are `u8` and are embedded as `Fin 256`.
-/

namespace RegionQtModel

/-- `Point` from `src/region_qt/primitives.rs`: a pair of `u32` coordinates. -/
structure Point where
  x : Nat
  y : Nat
deriving DecidableEq, Repr

/-- `impl Add for Point`: component-wise addition. -/
def Point.add (p q : Point) : Point :=
  { x := p.x + q.x, y := p.y + q.y }

/-- `impl Div<u32> for Point`: component-wise integer (floor) division. -/
def Point.divNat (p : Point) (k : Nat) : Point :=
  { x := p.x / k, y := p.y / k }

/-- The comparison `min <= max` used by `BoundingBox::new`.  `Point` derives
`PartialOrd` in the source, and Rust's derived `PartialOrd` on a struct is
*lexicographic* in field declaration order (`x` first, then `y`). -/
def Point.lexLe (p q : Point) : Bool :=
  decide (p.x < q.x) || (decide (p.x = q.x) && decide (p.y ≤ q.y))

/-- `BoundingBox` from `src/region_qt/primitives.rs`. -/
structure BoundingBox where
  min : Point
  max : Point
deriving DecidableEq, Repr

/-- `BoundingBox::new` runs `assert!(min <= max)` (lexicographic, see
`Point.lexLe`) before constructing the box; an assertion fault is modelled as
`none`. -/
def BoundingBox.new (min max : Point) : Option BoundingBox :=
  if Point.lexLe min max then some { min := min, max := max } else none

/-- `BoundingBox::center`: `(min + max) / 2`, integer division. -/
def BoundingBox.center (b : BoundingBox) : Point :=
  (Point.add b.min b.max).divNat 2

/-- An RGBA pixel: the `[u8; 4]` payload produced by `image::get_pixel`. -/
structure Rgba where
  r : Fin 256
  g : Fin 256
  b : Fin 256
  a : Fin 256
deriving DecidableEq, Repr

/-- `Color` from `src/region_qt.rs`. -/
inductive Color where
  | Gray : Color
  | Data : Rgba → Color
deriving DecidableEq, Repr

/-- The decoded pixel grid handed to `update` (the `DynamicImage` argument):
`width`, `height` and a pixel lookup.  `pix` is total; `build` only ever
samples coordinates inside the image. -/
structure Image where
  width : Nat
  height : Nat
  pix : Nat → Nat → Rgba

/-- `get_color` from `src/region_qt.rs`: wrap the pixel at `coord` in
`Color::Data`. -/
def get_color (img : Image) (coord : Nat × Nat) : Color :=
  Color.Data (img.pix coord.1 coord.2)

/-- The scan inside `RegionNodeQt::calculate_color`: `true` iff every pixel of
the half-open box `[min.x, max.x) × [min.y, max.y)` has the color sampled at
`(min.x, min.y)` (the Rust double loop returns `Gray` on the first mismatch,
which is observationally this all-quantifier). -/
def homogeneous (img : Image) (b : BoundingBox) : Bool :=
  (List.range' b.min.x (b.max.x - b.min.x)).all fun x =>
    (List.range' b.min.y (b.max.y - b.min.y)).all fun y =>
      decide (get_color img (x, y) = get_color img (b.min.x, b.min.y))

/-- `RegionNodeQt::calculate_color`: the sampled corner color if the box scan
finds no second color, otherwise `Color::Gray`. -/
def calculate_color (img : Image) (b : BoundingBox) : Color :=
  if homogeneous img b then get_color img (b.min.x, b.min.y) else Color.Gray

/-- The four child boxes built by `RegionNodeQt::initialize_children`, in the
source's index order 0..3. -/
def childBox (b : BoundingBox) : Fin 4 → BoundingBox
  | 0 => { min := { x := b.min.x, y := (BoundingBox.center b).y },
           max := { x := (BoundingBox.center b).x, y := b.max.y } }
  | 1 => { min := BoundingBox.center b, max := b.max }
  | 2 => { min := b.min, max := BoundingBox.center b }
  | 3 => { min := { x := (BoundingBox.center b).x, y := b.min.y },
           max := { x := b.max.x, y := (BoundingBox.center b).y } }

/-- The recursion measure for `RegionNodeQt::update`: the box's
width-plus-height. -/
def bboxMeasure (b : BoundingBox) : Nat :=
  (b.max.x - b.min.x) + (b.max.y - b.min.y)

/-- A box on which `calculate_color` answers `Gray` holds two distinct pixels:
both sides are positive and at least one exceeds 1. -/
theorem gray_box_size {img : Image} {b : BoundingBox}
    (h : calculate_color img b = Color.Gray) :
    b.min.x < b.max.x ∧ b.min.y < b.max.y ∧
      (b.min.x + 1 < b.max.x ∨ b.min.y + 1 < b.max.y) := by
  have hhom : homogeneous img b = false := by
    cases hh : homogeneous img b with
    | true => simp [calculate_color, hh, get_color] at h
    | false => rfl
  rw [homogeneous, List.all_eq_false] at hhom
  obtain ⟨x, hxmem, hxall⟩ := hhom
  rw [Bool.not_eq_true, List.all_eq_false] at hxall
  obtain ⟨y, hymem, hyne⟩ := hxall
  rw [List.mem_range'_1] at hxmem hymem
  have hx2 : b.min.x < b.max.x := by omega
  have hy2 : b.min.y < b.max.y := by omega
  refine ⟨hx2, hy2, ?_⟩
  by_contra hsmall
  push_neg at hsmall
  have hxeq : x = b.min.x := by omega
  have hyeq : y = b.min.y := by omega
  subst hxeq hyeq
  simp at hyne

/-- Each child box of a box that `update` subdivides is strictly smaller in
the `bboxMeasure` ordering. -/
theorem child_measure_lt {img : Image} {b : BoundingBox}
    (h : calculate_color img b = Color.Gray) (i : Fin 4) :
    bboxMeasure (childBox b i) < bboxMeasure b := by
  obtain ⟨hx, hy, hbig⟩ := gray_box_size h
  fin_cases i <;>
    simp only [childBox, bboxMeasure, BoundingBox.center, Point.add,
      Point.divNat] <;>
    omega

/-- `RegionNodeQt` from `src/region_qt.rs`: a color, a bounding box, and a
fixed array of four optional children (`children[0] .. children[3]`). -/
inductive RegionNodeQt : Type where
  | mk (data : Color) (bounding : BoundingBox)
      (c0 c1 c2 c3 : Option RegionNodeQt) : RegionNodeQt
deriving Repr

/-- Field accessor for `data`. -/
def RegionNodeQt.data : RegionNodeQt → Color
  | .mk d _ _ _ _ _ => d

/-- Field accessor for `bounding`. -/
def RegionNodeQt.bounding : RegionNodeQt → BoundingBox
  | .mk _ b _ _ _ _ => b

/-- The `children` array, as the list `[children[0], .., children[3]]`. -/
def RegionNodeQt.children : RegionNodeQt → List (Option RegionNodeQt)
  | .mk _ _ c0 c1 c2 c3 => [c0, c1, c2, c3]

/-- `RegionNodeQt::is_leaf`: all four children are absent. -/
def RegionNodeQt.isLeaf : RegionNodeQt → Bool
  | .mk _ _ c0 c1 c2 c3 => c0.isNone && c1.isNone && c2.isNone && c3.isNone

/-- `RegionNodeQt::update`, started (as `build` does) on a freshly created
node — `data = Gray`, no children — for the box `b`.  A homogeneous box stores
the sampled color and stays a leaf; otherwise the node keeps `Gray`, the four
child boxes of `initialize_children` are created in index order and updated
recursively.  (The `BoundingBox::new` assertion inside `initialize_children`
always passes on these boxes; see `new_succeeds_on_children`.) -/
def update (img : Image) (b : BoundingBox) : RegionNodeQt :=
  match h : calculate_color img b with
  | Color.Gray =>
      RegionNodeQt.mk Color.Gray b
        (some (update img (childBox b 0)))
        (some (update img (childBox b 1)))
        (some (update img (childBox b 2)))
        (some (update img (childBox b 3)))
  | Color.Data c => RegionNodeQt.mk (Color.Data c) b none none none none
termination_by bboxMeasure b
decreasing_by
  all_goals exact child_measure_lt h _

/-- Unfolding of `update` on a non-homogeneous box: the node stays `Gray` and
the four children of `initialize_children` are built and updated in index
order. -/
theorem update_gray {img : Image} {b : BoundingBox}
    (h : calculate_color img b = Color.Gray) :
    update img b =
      RegionNodeQt.mk Color.Gray b
        (some (update img (childBox b 0)))
        (some (update img (childBox b 1)))
        (some (update img (childBox b 2)))
        (some (update img (childBox b 3))) := by
  rw [update.eq_def]
  split
  · rfl
  · next c hc => rw [h] at hc; cases hc

/-- Unfolding of `update` on a homogeneous box: the node stores the sampled
color and keeps its four absent children. -/
theorem update_data {img : Image} {b : BoundingBox} {c : Rgba}
    (h : calculate_color img b = Color.Data c) :
    update img b = RegionNodeQt.mk (Color.Data c) b none none none none := by
  rw [update.eq_def]
  split
  · next hc => rw [h] at hc; cases hc
  · next c' hc =>
      rw [h] at hc
      cases hc
      rfl

/-- `RegionQt` from `src/region_qt.rs`: the public handle, an optional root
plus the image dimensions recorded at build time. -/
structure RegionQt where
  root : Option RegionNodeQt
  width : Nat
  height : Nat

/-- The root bounding box used by `RegionQt::build`: `(0, 0) .. (w, h)`. -/
def rootBox (w h : Nat) : BoundingBox :=
  { min := { x := 0, y := 0 }, max := { x := w, y := h } }

/-- `RegionQt::build` on an already-decoded image: record the dimensions,
create the root node over `(0,0) .. (w,h)` and run `update` on it. -/
def build (img : Image) : RegionQt :=
  { root := some (update img (rootBox img.width img.height)),
    width := img.width, height := img.height }

/-- The recursion of `RegionNodeQt::update` with an explicit depth budget:
`none` means the budget was exhausted before the recursion bottomed out.  Used
to state that the source's unbounded recursion terminates. -/
def updateF (img : Image) : Nat → BoundingBox → Option RegionNodeQt
  | 0, _ => none
  | fuel + 1, b =>
    match calculate_color img b with
    | Color.Gray => do
        let t0 ← updateF img fuel (childBox b 0)
        let t1 ← updateF img fuel (childBox b 1)
        let t2 ← updateF img fuel (childBox b 2)
        let t3 ← updateF img fuel (childBox b 3)
        some (RegionNodeQt.mk Color.Gray b
          (some t0) (some t1) (some t2) (some t3))
    | Color.Data c =>
        some (RegionNodeQt.mk (Color.Data c) b none none none none)

/-- Any depth budget beyond the box measure suffices: the recursion of
`update` terminates, and the fueled and unbounded forms agree. -/
theorem updateF_eq_update (img : Image) :
    ∀ (fuel : Nat) (b : BoundingBox), bboxMeasure b < fuel →
      updateF img fuel b = some (update img b) := by
  intro fuel
  induction fuel with
  | zero => intro b h; omega
  | succ n ih =>
    intro b h
    cases hc : calculate_color img b with
    | Gray =>
      have m0 := child_measure_lt hc 0
      have m1 := child_measure_lt hc 1
      have m2 := child_measure_lt hc 2
      have m3 := child_measure_lt hc 3
      rw [update_gray hc]
      simp only [updateF, hc, Option.bind_eq_bind]
      rw [ih (childBox b 0) (by omega), ih (childBox b 1) (by omega),
        ih (childBox b 2) (by omega), ih (childBox b 3) (by omega)]
      simp only [Option.some_bind]
    | Data c =>
      rw [update_data hc]
      simp only [updateF, hc]

/-- Within `build`'s recursion every box is component-wise ordered, so each
child box passes the (weaker, lexicographic) assertion of `BoundingBox::new`:
the construction in `initialize_children` never faults. -/
theorem new_succeeds_on_children {b : BoundingBox}
    (hx : b.min.x ≤ b.max.x) (hy : b.min.y ≤ b.max.y) (i : Fin 4) :
    BoundingBox.new (childBox b i).min (childBox b i).max =
      some (childBox b i) := by
  fin_cases i <;>
    simp only [childBox, BoundingBox.new, BoundingBox.center, Point.add,
      Point.divNat, Point.lexLe] <;>
    (rw [if_pos]; simp only [Bool.or_eq_true, Bool.and_eq_true,
      decide_eq_true_eq]; omega)

/-- Modelled from the spec: the codec's error kind for a truncated stream or
an invalid tag byte (§7).  The source's `RegionQt::write`/`RegionQt::from_file`
delegate the byte format to the external `serde_pickle` crate, whose code is
not part of this repository; the codec of spec §4.3 is embedded instead. -/
inductive CodecError : Type where
  | CorruptData : CodecError
deriving DecidableEq, Repr

/-- Modelled from the spec: the four color channel bytes of a leaf (§4.3).
`Gray` carries no channels; its bytes are a fixed placeholder, unreachable for
well-shaped trees, where every leaf holds `Data`. -/
def colorBytes : Color → List Nat
  | Color.Gray => [0, 0, 0, 0]
  | Color.Data c => [c.r.val, c.g.val, c.b.val, c.a.val]

/-- Modelled from the spec: pre-order node encoding (§4.3).  One tag byte per
node — `1` marks a leaf, `0` an interior node (the spec fixes one byte but not
its value) — a leaf adds its four color channel bytes, an interior node the
encodings of its four children in canonical order. -/
def encodeNode : RegionNodeQt → List Nat
  | .mk d b c0 c1 c2 c3 =>
    if (RegionNodeQt.mk d b c0 c1 c2 c3).isLeaf then
      1 :: colorBytes d
    else
      0 :: ((match c0 with | none => [] | some t => encodeNode t) ++
            (match c1 with | none => [] | some t => encodeNode t) ++
            (match c2 with | none => [] | some t => encodeNode t) ++
            (match c3 with | none => [] | some t => encodeNode t))

/-- Modelled from the spec: a `u32` in little-endian byte order (§6). -/
def u32le (n : Nat) : List Nat :=
  [n % 256, n / 256 % 256, n / 65536 % 256, n / 16777216 % 256]

/-- Modelled from the spec: `encode(tree)` (§4.3, §6) — `width` and `height`
as little-endian `u32`, then the pre-order node stream of the root (empty for
a never-built tree, about which the spec says nothing). -/
def toBytes (T : RegionQt) : List Nat :=
  u32le T.width ++ u32le T.height ++
    (match T.root with
     | none => []
     | some t => encodeNode t)

/-- Modelled from the spec: the node decoder, the exact inverse of
`encodeNode` (§4.3).  It re-derives each bounding box by quartering `b` with
the canonical split rule; `none` is a `CorruptData` condition (truncated
stream, invalid tag byte, or an out-of-range channel byte).  The returned
remainder is strictly shorter than the input, which also bounds the
recursion. -/
def decodeNode (b : BoundingBox) (bs : List Nat) :
    Option (RegionNodeQt × { rest : List Nat // rest.length < bs.length }) :=
  match bs with
  | [] => none
  | tag :: rest =>
    if tag = 1 then
      match rest with
      | r :: g :: bl :: a :: rest2 =>
        if h : r < 256 ∧ g < 256 ∧ bl < 256 ∧ a < 256 then
          some (RegionNodeQt.mk
              (Color.Data ⟨⟨r, h.1⟩, ⟨g, h.2.1⟩, ⟨bl, h.2.2.1⟩, ⟨a, h.2.2.2⟩⟩)
              b none none none none,
            ⟨rest2, by simp; omega⟩)
        else none
      | _ => none
    else if tag = 0 then
      match decodeNode (childBox b 0) rest with
      | none => none
      | some (t0, ⟨r0, hr0⟩) =>
        match decodeNode (childBox b 1) r0 with
        | none => none
        | some (t1, ⟨r1, hr1⟩) =>
          match decodeNode (childBox b 2) r1 with
          | none => none
          | some (t2, ⟨r2, hr2⟩) =>
            match decodeNode (childBox b 3) r2 with
            | none => none
            | some (t3, ⟨r3, hr3⟩) =>
              some (RegionNodeQt.mk Color.Gray b
                  (some t0) (some t1) (some t2) (some t3),
                ⟨r3, by simp; omega⟩)
    else none
termination_by bs.length
decreasing_by
  all_goals (simp; try omega)

/-- Modelled from the spec: `decode(bytes)` (§4.3, §6) — read the two
little-endian `u32` dimensions, decode the pre-order node stream over the root
box `(0,0)..(w,h)`, and demand that the stream is consumed exactly; any
failure is `CorruptData`. -/
def fromBytes (bs : List Nat) : Except CodecError RegionQt :=
  match bs with
  | b0 :: b1 :: b2 :: b3 :: b4 :: b5 :: b6 :: b7 :: rest =>
    let w := b0 + 256 * b1 + 65536 * b2 + 16777216 * b3
    let h := b4 + 256 * b5 + 65536 * b6 + 16777216 * b7
    (match decodeNode (rootBox w h) rest with
     | some (t, rest2) =>
       if rest2.val.isEmpty then
         Except.ok { root := some t, width := w, height := h }
       else Except.error CodecError.CorruptData
     | none => Except.error CodecError.CorruptData)
  | _ => Except.error CodecError.CorruptData

/-- The shape discipline of built trees: every node either has all four
children absent and a resolved `Data` color, or all four children present and
the `Gray` sentinel. -/
inductive WellShaped : RegionNodeQt → Prop where
  | leaf (c : Rgba) (b : BoundingBox) :
      WellShaped (.mk (Color.Data c) b none none none none)
  | node (b : BoundingBox) {t0 t1 t2 t3 : RegionNodeQt} :
      WellShaped t0 → WellShaped t1 → WellShaped t2 → WellShaped t3 →
      WellShaped (.mk Color.Gray b (some t0) (some t1) (some t2) (some t3))

/-- The geometric discipline of built trees: the node's bounding box is `b`,
and the children (when present) sit on the four canonical child boxes of `b`
in index order. -/
inductive BoxesFrom : BoundingBox → RegionNodeQt → Prop where
  | leaf (d : Color) (b : BoundingBox) :
      BoxesFrom b (.mk d b none none none none)
  | node (d : Color) (b : BoundingBox) {t0 t1 t2 t3 : RegionNodeQt} :
      BoxesFrom (childBox b 0) t0 → BoxesFrom (childBox b 1) t1 →
      BoxesFrom (childBox b 2) t2 → BoxesFrom (childBox b 3) t3 →
      BoxesFrom b (.mk d b (some t0) (some t1) (some t2) (some t3))

/-- `LeafIn l t`: `l` occurs in the tree `t` as a node with all four children
absent. -/
inductive LeafIn : RegionNodeQt → RegionNodeQt → Prop where
  | self (d : Color) (b : BoundingBox) :
      LeafIn (.mk d b none none none none) (.mk d b none none none none)
  | in0 {l t0 : RegionNodeQt} (d : Color) (b : BoundingBox)
      (c1 c2 c3 : Option RegionNodeQt) :
      LeafIn l t0 → LeafIn l (.mk d b (some t0) c1 c2 c3)
  | in1 {l t1 : RegionNodeQt} (d : Color) (b : BoundingBox)
      (c0 c2 c3 : Option RegionNodeQt) :
      LeafIn l t1 → LeafIn l (.mk d b c0 (some t1) c2 c3)
  | in2 {l t2 : RegionNodeQt} (d : Color) (b : BoundingBox)
      (c0 c1 c3 : Option RegionNodeQt) :
      LeafIn l t2 → LeafIn l (.mk d b c0 c1 (some t2) c3)
  | in3 {l t3 : RegionNodeQt} (d : Color) (b : BoundingBox)
      (c0 c1 c2 : Option RegionNodeQt) :
      LeafIn l t3 → LeafIn l (.mk d b c0 c1 c2 (some t3))

/-- A split line segment: the `[Point; 2]` value pushed by
`RegionNodeQt::lines`. -/
structure Segment where
  p : Point
  q : Point
deriving DecidableEq, Repr

/-- The vertical split segment an interior node pushes first:
`x = center.x`, spanning `[min.y, max.y]`. -/
def vSeg (b : BoundingBox) : Segment :=
  { p := { x := (BoundingBox.center b).x, y := b.min.y },
    q := { x := (BoundingBox.center b).x, y := b.max.y } }

/-- The horizontal split segment pushed second: `y = center.y`, spanning
`[min.x, max.x]`. -/
def hSeg (b : BoundingBox) : Segment :=
  { p := { x := b.min.x, y := (BoundingBox.center b).y },
    q := { x := b.max.x, y := (BoundingBox.center b).y } }

/-- `RegionNodeQt::lines`, with the `&mut Vec` accumulator made explicit: a
leaf returns the accumulator unchanged; an interior node pushes its vertical
then horizontal split segment, then folds over the present children in index
order (`self.children.iter().flatten()`). -/
def linesAcc : RegionNodeQt → List Segment → List Segment
  | .mk d b c0 c1 c2 c3, acc =>
    if (RegionNodeQt.mk d b c0 c1 c2 c3).isLeaf then acc
    else
      let acc0 := acc ++ [vSeg b, hSeg b]
      let acc1 := match c0 with | none => acc0 | some t => linesAcc t acc0
      let acc2 := match c1 with | none => acc1 | some t => linesAcc t acc1
      let acc3 := match c2 with | none => acc2 | some t => linesAcc t acc2
      match c3 with | none => acc3 | some t => linesAcc t acc3

/-- `RegionQt::get_lines`: run `lines` from the root on an empty vector.  (The
source unwraps the root; the claims concern built trees, whose root is
present.) -/
def getLines (T : RegionQt) : List Segment :=
  match T.root with
  | none => []
  | some r => linesAcc r []

/-- The emitted line sequence as the spec words it (§4.4): pre-order; an
interior node contributes exactly its two split segments, vertical then
horizontal, followed by its children's sequences in index order; a leaf
contributes nothing.  Stated from the spec's description, to be compared with
the source-derived accumulator traversal `linesAcc`. -/
def linesSpec : RegionNodeQt → List Segment
  | .mk d b c0 c1 c2 c3 =>
    if (RegionNodeQt.mk d b c0 c1 c2 c3).isLeaf then []
    else
      [vSeg b, hSeg b] ++
        ((match c0 with | none => [] | some t => linesSpec t) ++
         (match c1 with | none => [] | some t => linesSpec t) ++
         (match c2 with | none => [] | some t => linesSpec t) ++
         (match c3 with | none => [] | some t => linesSpec t))

/-- The pre-order node stream as claim C5 words it: each node contributes one
leaf/interior tag byte; a leaf additionally contributes its four color channel
bytes; an interior node is followed by its four children's streams in order. -/
inductive NodeStreamOf : RegionNodeQt → List Nat → Prop where
  | leaf (c : Rgba) (b : BoundingBox) :
      NodeStreamOf (.mk (Color.Data c) b none none none none)
        (1 :: [c.r.val, c.g.val, c.b.val, c.a.val])
  | node (d : Color) (b : BoundingBox) {t0 t1 t2 t3 : RegionNodeQt}
      {s0 s1 s2 s3 : List Nat} :
      NodeStreamOf t0 s0 → NodeStreamOf t1 s1 →
      NodeStreamOf t2 s2 → NodeStreamOf t3 s3 →
      NodeStreamOf (.mk d b (some t0) (some t1) (some t2) (some t3))
        (0 :: (s0 ++ s1 ++ s2 ++ s3))

/-- A homogeneous box really is monochrome: every pixel of the half-open box
equals the sampled corner pixel. -/
theorem homogeneous_pixel {img : Image} {b : BoundingBox}
    (h : homogeneous img b = true) {x y : Nat}
    (hx1 : b.min.x ≤ x) (hx2 : x < b.max.x)
    (hy1 : b.min.y ≤ y) (hy2 : y < b.max.y) :
    img.pix x y = img.pix b.min.x b.min.y := by
  rw [homogeneous, List.all_eq_true] at h
  have hx := h x (by rw [List.mem_range'_1]; omega)
  rw [List.all_eq_true] at hx
  have hy := hx y (by rw [List.mem_range'_1]; omega)
  simpa [get_color] using hy

/-- Reading off `calculate_color` when it resolves: the box scan succeeded and
the resolved color is the sampled corner pixel. -/
theorem calculate_color_data {img : Image} {b : BoundingBox} {c : Rgba}
    (h : calculate_color img b = Color.Data c) :
    homogeneous img b = true ∧ c = img.pix b.min.x b.min.y := by
  rw [calculate_color] at h
  by_cases hh : homogeneous img b
  · rw [if_pos hh] at h
    simp only [get_color] at h
    cases h
    exact ⟨hh, rfl⟩
  · rw [if_neg hh] at h
    cases h

/-- Every tree `update` builds is well shaped: children all absent with a
`Data` color, or all present with `Gray`. -/
theorem wellShaped_update (img : Image) : ∀ b, WellShaped (update img b) := by
  intro b
  induction b using update.induct img with
  | case1 bb hGray ih0 ih1 ih2 ih3 =>
    rw [update_gray hGray]
    exact WellShaped.node bb ih0 ih1 ih2 ih3
  | case2 bb c hData =>
    rw [update_data hData]
    exact WellShaped.leaf c bb

/-- Every tree `update` builds carries the box it was built over, and its
children sit on the four canonical child boxes in index order. -/
theorem boxesFrom_update (img : Image) : ∀ b, BoxesFrom b (update img b) := by
  intro b
  induction b using update.induct img with
  | case1 bb hGray ih0 ih1 ih2 ih3 =>
    rw [update_gray hGray]
    exact BoxesFrom.node Color.Gray bb ih0 ih1 ih2 ih3
  | case2 bb c hData =>
    rw [update_data hData]
    exact BoxesFrom.leaf (Color.Data c) bb

/-- Leaf homogeneity over an arbitrary starting box: every pixel inside any
leaf's bounding box has the leaf's stored color. -/
theorem leafIn_update_pixel (img : Image) :
    ∀ b l, LeafIn l (update img b) →
      ∀ x y, l.bounding.min.x ≤ x → x < l.bounding.max.x →
        l.bounding.min.y ≤ y → y < l.bounding.max.y →
        Color.Data (img.pix x y) = l.data := by
  intro b
  induction b using update.induct img with
  | case1 bb hGray ih0 ih1 ih2 ih3 =>
    intro l hl x y hx1 hx2 hy1 hy2
    rw [update_gray hGray] at hl
    cases hl with
    | in0 _ _ _ _ _ h => exact ih0 l h x y hx1 hx2 hy1 hy2
    | in1 _ _ _ _ _ h => exact ih1 l h x y hx1 hx2 hy1 hy2
    | in2 _ _ _ _ _ h => exact ih2 l h x y hx1 hx2 hy1 hy2
    | in3 _ _ _ _ _ h => exact ih3 l h x y hx1 hx2 hy1 hy2
  | case2 bb c hData =>
    intro l hl x y hx1 hx2 hy1 hy2
    rw [update_data hData] at hl
    cases hl with
    | self =>
      obtain ⟨hhom, hc⟩ := calculate_color_data hData
      simp only [RegionNodeQt.bounding] at hx1 hx2 hy1 hy2
      simp only [RegionNodeQt.data]
      rw [homogeneous_pixel hhom hx1 hx2 hy1 hy2, hc]

/-- An encoded node is never the empty stream (its tag byte is always
there). -/
theorem encodeNode_length_pos (t : RegionNodeQt) : 0 < (encodeNode t).length := by
  cases t with
  | mk d b c0 c1 c2 c3 =>
    rw [encodeNode.eq_def]
    split
    split <;> simp

/-- For a well-shaped tree, `encodeNode` produces exactly the tag/color
pre-order stream described by the spec. -/
theorem encodeNode_stream {t : RegionNodeQt} (h : WellShaped t) :
    NodeStreamOf t (encodeNode t) := by
  induction h with
  | leaf c b => exact NodeStreamOf.leaf c b
  | node b h0 h1 h2 h3 ih0 ih1 ih2 ih3 =>
    exact NodeStreamOf.node Color.Gray b ih0 ih1 ih2 ih3

/-- `decodeNode` with the remainder's length bound erased: the form the
decoder lemmas are stated in. -/
def decodeNodeV (b : BoundingBox) (bs : List Nat) :
    Option (RegionNodeQt × List Nat) :=
  (decodeNode b bs).map fun p => (p.1, p.2.val)

theorem decodeNodeV_nil (b : BoundingBox) : decodeNodeV b [] = none := by
  rw [decodeNodeV, decodeNode.eq_def]
  rfl

theorem decodeNodeV_leafBytes {r g bl a : Nat} (b : BoundingBox)
    (h : r < 256 ∧ g < 256 ∧ bl < 256 ∧ a < 256) (rest2 : List Nat) :
    decodeNodeV b (1 :: r :: g :: bl :: a :: rest2) =
      some (RegionNodeQt.mk
        (Color.Data ⟨⟨r, h.1⟩, ⟨g, h.2.1⟩, ⟨bl, h.2.2.1⟩, ⟨a, h.2.2.2⟩⟩)
        b none none none none, rest2) := by
  rw [decodeNodeV, decodeNode.eq_def]
  simp [h]

theorem decodeNodeV_leafBytes_bad {r g bl a : Nat} (b : BoundingBox)
    (h : ¬(r < 256 ∧ g < 256 ∧ bl < 256 ∧ a < 256)) (rest2 : List Nat) :
    decodeNodeV b (1 :: r :: g :: bl :: a :: rest2) = none := by
  rw [decodeNodeV, decodeNode.eq_def]
  simp [h]

theorem decodeNodeV_tag1_short (b : BoundingBox) {rest : List Nat}
    (h : ∀ (r g bl a : Nat) (rest2 : List Nat),
      rest = r :: g :: bl :: a :: rest2 → False) :
    decodeNodeV b (1 :: rest) = none := by
  rw [decodeNodeV, decodeNode.eq_def]
  match rest with
  | [] => simp
  | [r] => simp
  | [r, g] => simp
  | [r, g, bl] => simp
  | r :: g :: bl :: a :: rest2 => exact absurd rfl (h r g bl a rest2)

theorem decodeNodeV_badTag {tag : Nat} (b : BoundingBox) (rest : List Nat)
    (h1 : ¬tag = 1) (h0 : ¬tag = 0) :
    decodeNodeV b (tag :: rest) = none := by
  rw [decodeNodeV, decodeNode.eq_def]
  simp [h0, h1]

/-- Unfolding the interior-node case of the decoder as a monadic chain over
the four children. -/
theorem decodeNodeV_tag0 (b : BoundingBox) (rest : List Nat) :
    decodeNodeV b (0 :: rest) =
      (decodeNodeV (childBox b 0) rest).bind fun p0 =>
      (decodeNodeV (childBox b 1) p0.2).bind fun p1 =>
      (decodeNodeV (childBox b 2) p1.2).bind fun p2 =>
      (decodeNodeV (childBox b 3) p2.2).map fun p3 =>
        (RegionNodeQt.mk Color.Gray b
          (some p0.1) (some p1.1) (some p2.1) (some p3.1), p3.2) := by
  rw [decodeNodeV, decodeNode.eq_def]
  cases hd0 : decodeNode (childBox b 0) rest with
  | none => simp [decodeNodeV, hd0]
  | some p0 =>
    obtain ⟨t0, r0, hr0⟩ := p0
    cases hd1 : decodeNode (childBox b 1) r0 with
    | none => simp [decodeNodeV, hd0, hd1]
    | some p1 =>
      obtain ⟨t1, r1, hr1⟩ := p1
      cases hd2 : decodeNode (childBox b 2) r1 with
      | none => simp [decodeNodeV, hd0, hd1, hd2]
      | some p2 =>
        obtain ⟨t2, r2, hr2⟩ := p2
        cases hd3 : decodeNode (childBox b 3) r2 with
        | none => simp [decodeNodeV, hd0, hd1, hd2, hd3]
        | some p3 =>
          obtain ⟨t3, r3, hr3⟩ := p3
          simp [decodeNodeV, hd0, hd1, hd2, hd3]

theorem decodeNode_some_v {b : BoundingBox} {bs : List Nat}
    {t : RegionNodeQt} {r : List Nat} {hr : r.length < bs.length}
    (h : decodeNode b bs = some (t, ⟨r, hr⟩)) :
    decodeNodeV b bs = some (t, r) := by
  rw [decodeNodeV, h]
  rfl

/-- The decoder is prefix-monotone: it never looks past the bytes it
consumes, so appending a suffix to a successfully decoded buffer leaves the
decoded node unchanged and lands the suffix in the remainder. -/
theorem decodeNode_extend {b : BoundingBox} {bs : List Nat} :
    ∀ {t r}, decodeNodeV b bs = some (t, r) →
      ∀ u, decodeNodeV b (bs ++ u) = some (t, r ++ u) := by
  induction b, bs using decodeNode.induct with
  | case1 b =>
    intro t r h
    rw [decodeNodeV_nil] at h
    cases h
  | case2 b rr g bl a rest2 hlt =>
    intro t r h u
    rw [decodeNodeV_leafBytes b hlt] at h
    cases h
    exact decodeNodeV_leafBytes b hlt (rest2 ++ u)
  | case3 b rr g bl a rest2 hlt =>
    intro t r h
    rw [decodeNodeV_leafBytes_bad b hlt] at h
    cases h
  | case4 b rest hshape =>
    intro t r h
    rw [decodeNodeV_tag1_short b hshape] at h
    cases h
  | case5 b rest hd0 hne ih0 =>
    intro t r h
    rw [decodeNodeV_tag0] at h
    simp [decodeNodeV, hd0] at h
  | case6 b rest t0 r0 hr0 hd0 hd1 hne ih0 ih1 =>
    intro t r h
    rw [decodeNodeV_tag0] at h
    simp [decodeNodeV, hd0, hd1] at h
  | case7 b rest t0 r0 hr0 hd0 t1 r1 hr1 hd1 hd2 hne ih0 ih1 ih2 =>
    intro t r h
    rw [decodeNodeV_tag0] at h
    simp [decodeNodeV, hd0, hd1, hd2] at h
  | case8 b rest t0 r0 hr0 hd0 t1 r1 hr1 hd1 t2 r2 hr2 hd2 hd3 hne ih0 ih1 ih2 ih3 =>
    intro t r h
    rw [decodeNodeV_tag0] at h
    simp [decodeNodeV, hd0, hd1, hd2, hd3] at h
  | case9 b rest t0 r0 hr0 hd0 t1 r1 hr1 hd1 t2 r2 hr2 hd2 t3 r3 hr3 hd3 hne ih0 ih1 ih2 ih3 =>
    intro t r h u
    rw [decodeNodeV_tag0] at h
    simp only [decodeNode_some_v hd0, decodeNode_some_v hd1,
      decodeNode_some_v hd2, decodeNode_some_v hd3, Option.some_bind,
      Option.map_some'] at h
    cases h
    show decodeNodeV b (0 :: (rest ++ u)) = _
    rw [decodeNodeV_tag0]
    simp only [ih0 (decodeNode_some_v hd0) u, ih1 (decodeNode_some_v hd1) u,
      ih2 (decodeNode_some_v hd2) u, ih3 (decodeNode_some_v hd3) u,
      Option.some_bind, Option.map_some']
  | case10 b tag rest h1 h0 =>
    intro t r h
    rw [decodeNodeV_badTag b rest h1 h0] at h
    cases h

/-- The decoder inverts the encoder: decoding an encoded well-formed tree
(with any suffix appended) returns exactly that tree and the suffix. -/
theorem decode_encode {t : RegionNodeQt} (hs : WellShaped t) :
    ∀ {b : BoundingBox}, BoxesFrom b t → ∀ (rest : List Nat),
      decodeNodeV b (encodeNode t ++ rest) = some (t, rest) := by
  induction hs with
  | leaf c bb =>
    intro b hb rest
    cases hb
    have he : encodeNode (.mk (Color.Data c) bb none none none none) =
        1 :: c.r.val :: c.g.val :: c.b.val :: c.a.val :: [] := rfl
    rw [he]
    simp only [List.cons_append, List.nil_append]
    rw [decodeNodeV_leafBytes bb ⟨c.r.isLt, c.g.isLt, c.b.isLt, c.a.isLt⟩ rest]
  | node bb h0 h1 h2 h3 ih0 ih1 ih2 ih3 =>
    intro b hb rest
    cases hb with
    | node d _ hb0 hb1 hb2 hb3 =>
      rename_i t0 t1 t2 t3
      have he : encodeNode (.mk Color.Gray bb
          (some t0) (some t1) (some t2) (some t3)) =
          0 :: (encodeNode t0 ++ encodeNode t1 ++ encodeNode t2 ++
            encodeNode t3) := rfl
      rw [he]
      simp only [List.cons_append, List.append_assoc]
      rw [decodeNodeV_tag0]
      simp only [ih0 hb0, ih1 hb1, ih2 hb2, ih3 hb3, Option.some_bind,
        Option.map_some']

theorem decodeNode_of_v {b : BoundingBox} {bs : List Nat} {t : RegionNodeQt}
    {r : List Nat} (h : decodeNodeV b bs = some (t, r)) :
    ∃ hr : r.length < bs.length, decodeNode b bs = some (t, ⟨r, hr⟩) := by
  rw [decodeNodeV] at h
  cases hd : decodeNode b bs with
  | none => rw [hd] at h; cases h
  | some p =>
    obtain ⟨t', r', hr'⟩ := p
    rw [hd] at h
    simp only [Option.map_some', Option.some.injEq, Prod.mk.injEq] at h
    obtain ⟨ht, hr2⟩ := h
    subst ht
    subst hr2
    exact ⟨hr', rfl⟩

theorem fromBytes_toBytes {T : RegionQt} {t : RegionNodeQt}
    (hroot : T.root = some t) (hs : WellShaped t)
    (hb : BoxesFrom (rootBox T.width T.height) t)
    (hw : T.width < 4294967296) (hh : T.height < 4294967296) :
    fromBytes (toBytes T) = Except.ok T := by
  obtain ⟨root, w, h⟩ := T
  simp only at hroot hb hw hh
  subst hroot
  have hv := decode_encode hs hb []
  rw [List.append_nil] at hv
  obtain ⟨hr, hd⟩ := decodeNode_of_v hv
  rw [toBytes]
  simp only [u32le, List.cons_append, List.nil_append]
  rw [fromBytes]
  have hww : (w % 256) + 256 * (w / 256 % 256) + 65536 * (w / 65536 % 256)
      + 16777216 * (w / 16777216 % 256) = w := by omega
  have hhh : (h % 256) + 256 * (h / 256 % 256) + 65536 * (h / 65536 % 256)
      + 16777216 * (h / 16777216 % 256) = h := by omega
  simp only [hww, hhh, hd, List.isEmpty_nil, if_true]



theorem fromBytes_truncated {T : RegionQt} {t : RegionNodeQt}
    (hroot : T.root = some t) (hs : WellShaped t)
    (hb : BoxesFrom (rootBox T.width T.height) t)
    (hw : T.width < 4294967296) (hh : T.height < 4294967296)
    {p u : List Nat} (hsplit : toBytes T = p ++ u) (hu : u ≠ []) :
    fromBytes p = Except.error CodecError.CorruptData := by
  obtain ⟨root, w, h⟩ := T
  simp only at hroot hb hw hh
  subst hroot
  rw [toBytes] at hsplit
  simp only [u32le, List.cons_append, List.nil_append] at hsplit
  rcases p with _ | ⟨x0, _ | ⟨x1, _ | ⟨x2, _ | ⟨x3, _ | ⟨x4, _ | ⟨x5, _ | ⟨x6, _ | ⟨x7, q⟩⟩⟩⟩⟩⟩⟩⟩
  · rfl
  · rfl
  · rfl
  · rfl
  · rfl
  · rfl
  · rfl
  · rfl
  · simp only [List.cons_append, List.cons.injEq] at hsplit
    obtain ⟨e0, ⟨e1, ⟨e2, ⟨e3, ⟨e4, ⟨e5, ⟨e6, ⟨e7, henc⟩⟩⟩⟩⟩⟩⟩⟩ := hsplit
    subst e0 e1 e2 e3 e4 e5 e6 e7
    rw [fromBytes]
    have hww : (w % 256) + 256 * (w / 256 % 256) + 65536 * (w / 65536 % 256)
        + 16777216 * (w / 16777216 % 256) = w := by omega
    have hhh : (h % 256) + 256 * (h / 256 % 256) + 65536 * (h / 65536 % 256)
        + 16777216 * (h / 16777216 % 256) = h := by omega
    simp only [hww, hhh]
    cases hd : decodeNode (rootBox w h) q with
    | none => simp
    | some pr =>
      exfalso
      obtain ⟨s, r, hr⟩ := pr
      have hv := decodeNode_extend (decodeNode_some_v hd) u
      rw [← henc] at hv
      have hv2 := decode_encode hs hb []
      rw [List.append_nil] at hv2
      rw [hv2] at hv
      simp only [Option.some.injEq, Prod.mk.injEq] at hv
      obtain ⟨hts, hru⟩ := hv
      exact hu (List.append_eq_nil.mp hru.symm).2

theorem linesAcc_leaf (d : Color) (b : BoundingBox) (acc : List Segment) :
    linesAcc (.mk d b none none none none) acc = acc := rfl

theorem linesAcc_node (d : Color) (b : BoundingBox)
    (t0 t1 t2 t3 : RegionNodeQt) (acc : List Segment) :
    linesAcc (.mk d b (some t0) (some t1) (some t2) (some t3)) acc =
      linesAcc t3 (linesAcc t2 (linesAcc t1 (linesAcc t0
        (acc ++ [vSeg b, hSeg b])))) := rfl

theorem linesSpec_leaf (d : Color) (b : BoundingBox) :
    linesSpec (.mk d b none none none none) = [] := rfl

theorem linesSpec_node (d : Color) (b : BoundingBox)
    (t0 t1 t2 t3 : RegionNodeQt) :
    linesSpec (.mk d b (some t0) (some t1) (some t2) (some t3)) =
      [vSeg b, hSeg b] ++
        (linesSpec t0 ++ linesSpec t1 ++ linesSpec t2 ++ linesSpec t3) := rfl

/-- The source's accumulator traversal appends exactly the spec's emitted
sequence to the incoming accumulator. -/
theorem linesAcc_spec {t : RegionNodeQt} (hs : WellShaped t) :
    ∀ acc, linesAcc t acc = acc ++ linesSpec t := by
  induction hs with
  | leaf c b =>
    intro acc
    rw [linesAcc_leaf, linesSpec_leaf, List.append_nil]
  | node b h0 h1 h2 h3 ih0 ih1 ih2 ih3 =>
    intro acc
    rw [linesAcc_node, linesSpec_node, ih0, ih1, ih2, ih3]
    simp [List.append_assoc]

/-- A box whose x-extent or y-extent is empty scans as homogeneous (the Rust
double loop body never runs). -/
theorem homogeneous_of_thin {img : Image} {b : BoundingBox}
    (h : b.max.x - b.min.x = 0 ∨ b.max.y - b.min.y = 0) :
    homogeneous img b = true := by
  rw [homogeneous]
  rcases h with h | h
  · rw [h]
    rfl
  · rw [h]
    simp [List.all_eq_true]

/-- On an empty (thin) box, `update` produces a leaf holding the color
sampled at the box's min corner. -/
theorem update_thin {img : Image} {b : BoundingBox}
    (h : b.max.x - b.min.x = 0 ∨ b.max.y - b.min.y = 0) :
    update img b = RegionNodeQt.mk
      (Color.Data (img.pix b.min.x b.min.y)) b none none none none := by
  have hc : calculate_color img b = Color.Data (img.pix b.min.x b.min.y) := by
    rw [calculate_color, if_pos (homogeneous_of_thin h)]
    rfl
  exact update_data hc

/-- A concrete uniform 1×1 image, used by witnesses. -/
def imgOne : Image :=
  { width := 1, height := 1, pix := fun _ _ => ⟨10, 20, 30, 255⟩ }

/-- A concrete 2×2 image with four distinct pixel colors, used by
witnesses. -/
def imgFour : Image :=
  { width := 2, height := 2,
    pix := fun x y =>
      if x = 0 then (if y = 0 then ⟨1, 0, 0, 255⟩ else ⟨0, 1, 0, 255⟩)
      else (if y = 0 then ⟨0, 0, 1, 255⟩ else ⟨1, 1, 1, 255⟩) }

/-- A concrete 1×2 image with two distinct pixel colors, used by
witnesses. -/
def imgTall : Image :=
  { width := 1, height := 2,
    pix := fun _ y => if y = 0 then ⟨5, 5, 5, 255⟩ else ⟨9, 9, 9, 255⟩ }

/-- The tree `build` produces on `imgFour`: an interior root with four 1×1
leaves in canonical order. -/
def treeFour : RegionNodeQt :=
  RegionNodeQt.mk Color.Gray (rootBox 2 2)
    (some (RegionNodeQt.mk (Color.Data ⟨0, 1, 0, 255⟩)
      { min := { x := 0, y := 1 }, max := { x := 1, y := 2 } }
      none none none none))
    (some (RegionNodeQt.mk (Color.Data ⟨1, 1, 1, 255⟩)
      { min := { x := 1, y := 1 }, max := { x := 2, y := 2 } }
      none none none none))
    (some (RegionNodeQt.mk (Color.Data ⟨1, 0, 0, 255⟩)
      { min := { x := 0, y := 0 }, max := { x := 1, y := 1 } }
      none none none none))
    (some (RegionNodeQt.mk (Color.Data ⟨0, 0, 1, 255⟩)
      { min := { x := 1, y := 0 }, max := { x := 2, y := 1 } }
      none none none none))

theorem update_imgFour : update imgFour (rootBox 2 2) = treeFour := by
  have h1 := updateF_eq_update imgFour 5 (rootBox 2 2) (by decide)
  have h2 : updateF imgFour 5 (rootBox 2 2) = some treeFour := rfl
  rw [h1] at h2
  exact Option.some.inj h2

theorem build_imgFour_root : (build imgFour).root = some treeFour := by
  show some (update imgFour (rootBox 2 2)) = some treeFour
  rw [update_imgFour]

/-- The two facts C10 asserts about an empty (degenerate) child box: `update`
turns it into a leaf colored by the pixel at its min corner, and its half-open
extent contains no pixel at all. -/
theorem empty_child_props (img : Image) (c : BoundingBox)
    (hc : c.max.x - c.min.x = 0 ∨ c.max.y - c.min.y = 0) :
    update img c = RegionNodeQt.mk
      (Color.Data (img.pix c.min.x c.min.y)) c none none none none ∧
    (∀ x y : Nat,
      ¬(c.min.x ≤ x ∧ x < c.max.x ∧ c.min.y ≤ y ∧ y < c.max.y)) :=
  ⟨update_thin hc, by intro x y hcc; omega⟩

/-- A single 1×1 leaf node, used by witnesses. -/
def treeOne : RegionNodeQt :=
  RegionNodeQt.mk (Color.Data ⟨10, 20, 30, 255⟩) (rootBox 1 1)
    none none none none

/-- A built 1×1 tree handle, used by witnesses. -/
def qtOne : RegionQt :=
  { root := some treeOne, width := 1, height := 1 }

/-- C1: decoding the bytes produced by encoding a built region quadtree yields
a tree structurally and semantically identical to it — the same width and
height, and the same node shape with the same leaf colors over the same
bounding boxes (here: the decoded handle is equal to the original). -/
theorem c1_roundtrip {T : RegionQt} {t : RegionNodeQt}
    (hroot : T.root = some t) (hs : WellShaped t)
    (hb : BoxesFrom (rootBox T.width T.height) t)
    (hw : T.width < 4294967296) (hh : T.height < 4294967296) :
    fromBytes (toBytes T) = Except.ok T :=
  fromBytes_toBytes hroot hs hb hw hh

theorem c1_roundtrip_witness :
    fromBytes (toBytes qtOne) = Except.ok qtOne :=
  c1_roundtrip rfl (WellShaped.leaf _ _) (BoxesFrom.leaf _ _)
    (by decide) (by decide)

/-- C2: every pixel lying inside the bounding box of any leaf of a built tree
has exactly that leaf's stored color. -/
theorem c2_leaf_homogeneity (img : Image) (t l : RegionNodeQt)
    (hroot : (build img).root = some t) (hl : LeafIn l t)
    (x y : Nat)
    (hx1 : l.bounding.min.x ≤ x) (hx2 : x < l.bounding.max.x)
    (hy1 : l.bounding.min.y ≤ y) (hy2 : y < l.bounding.max.y) :
    Color.Data (img.pix x y) = l.data := by
  have h : (build img).root =
      some (update img (rootBox img.width img.height)) := rfl
  rw [hroot] at h
  have ht := Option.some.inj h
  rw [ht] at hl
  exact leafIn_update_pixel img _ l hl x y hx1 hx2 hy1 hy2

theorem c2_leaf_homogeneity_witness :
    Color.Data (imgFour.pix 0 0) =
      (RegionNodeQt.mk (Color.Data ⟨1, 0, 0, 255⟩)
        { min := { x := 0, y := 0 }, max := { x := 1, y := 1 } }
        none none none none).data :=
  c2_leaf_homogeneity imgFour treeFour _ build_imgFour_root
    (LeafIn.in2 _ _ _ _ _ (LeafIn.self _ _)) 0 0
    (by decide) (by decide) (by decide) (by decide)

/-- C3: when `build` subdivides a box, the four children are created in fixed
index order with exactly the canonical bounding boxes derived from
`center = (min + max) / 2` under integer (floor) division. -/
theorem c3_child_layout (img : Image) (b : BoundingBox)
    (h : calculate_color img b = Color.Gray) :
    update img b = RegionNodeQt.mk Color.Gray b
      (some (update img
        { min := { x := b.min.x, y := (b.min.y + b.max.y) / 2 },
          max := { x := (b.min.x + b.max.x) / 2, y := b.max.y } }))
      (some (update img
        { min := { x := (b.min.x + b.max.x) / 2, y := (b.min.y + b.max.y) / 2 },
          max := b.max }))
      (some (update img
        { min := b.min,
          max := { x := (b.min.x + b.max.x) / 2,
                   y := (b.min.y + b.max.y) / 2 } }))
      (some (update img
        { min := { x := (b.min.x + b.max.x) / 2, y := b.min.y },
          max := { x := b.max.x, y := (b.min.y + b.max.y) / 2 } })) := by
  rw [update_gray h]
  rfl

theorem c3_child_layout_witness :
    update imgFour (rootBox 2 2) = RegionNodeQt.mk Color.Gray (rootBox 2 2)
      (some (update imgFour
        { min := { x := 0, y := 1 }, max := { x := 1, y := 2 } }))
      (some (update imgFour
        { min := { x := 1, y := 1 }, max := { x := 2, y := 2 } }))
      (some (update imgFour
        { min := { x := 0, y := 0 }, max := { x := 1, y := 1 } }))
      (some (update imgFour
        { min := { x := 1, y := 0 }, max := { x := 2, y := 1 } })) :=
  c3_child_layout imgFour (rootBox 2 2) (by decide)

/-- C4: on any image with positive dimensions the build recursion terminates
(a finite depth budget suffices for the fueled recursion, whose result is the
built root), and a 1×1 image always builds a single-leaf tree with no
children. -/
theorem c4_termination (img : Image)
    (hw : 1 ≤ img.width) (hh : 1 ≤ img.height) :
    (∃ fuel t, updateF img fuel (rootBox img.width img.height) = some t ∧
        (build img).root = some t) ∧
    (img.width = 1 → img.height = 1 →
      build img = RegionQt.mk
        (some (RegionNodeQt.mk (Color.Data (img.pix 0 0)) (rootBox 1 1)
          none none none none)) 1 1) := by
  constructor
  · exact ⟨bboxMeasure (rootBox img.width img.height) + 1,
      update img (rootBox img.width img.height),
      updateF_eq_update img _ _ (by omega), rfl⟩
  · intro h1 h2
    have hhom : homogeneous img (rootBox 1 1) = true := by
      rw [homogeneous]
      simp [rootBox, List.range'_one]
    have hc : calculate_color img (rootBox 1 1) =
        Color.Data (img.pix 0 0) := by
      rw [calculate_color, if_pos hhom]
      rfl
    simp only [build, h1, h2]
    rw [update_data hc]

theorem c4_termination_witness :
    (∃ fuel t, updateF imgOne fuel (rootBox imgOne.width imgOne.height) =
        some t ∧ (build imgOne).root = some t) ∧
    (imgOne.width = 1 → imgOne.height = 1 →
      build imgOne = RegionQt.mk
        (some (RegionNodeQt.mk (Color.Data (imgOne.pix 0 0)) (rootBox 1 1)
          none none none none)) 1 1) :=
  c4_termination imgOne (by decide) (by decide)

/-- C5: the encoded byte stream of a built tree begins with the width as a
little-endian unsigned 32-bit integer, then the height likewise, followed by
the pre-order node stream in which every node contributes one leaf/interior
tag byte and every leaf additionally its four color channel bytes. -/
theorem c5_format (T : RegionQt) (t : RegionNodeQt)
    (hroot : T.root = some t) (hs : WellShaped t) :
    ∃ s : List Nat,
      toBytes T =
        [T.width % 256, T.width / 256 % 256, T.width / 65536 % 256,
          T.width / 16777216 % 256] ++
        [T.height % 256, T.height / 256 % 256, T.height / 65536 % 256,
          T.height / 16777216 % 256] ++ s ∧
      NodeStreamOf t s := by
  refine ⟨encodeNode t, ?_, encodeNode_stream hs⟩
  rw [toBytes, hroot]
  rfl

theorem c5_format_witness :
    ∃ s : List Nat,
      toBytes qtOne =
        [qtOne.width % 256, qtOne.width / 256 % 256, qtOne.width / 65536 % 256,
          qtOne.width / 16777216 % 256] ++
        [qtOne.height % 256, qtOne.height / 256 % 256,
          qtOne.height / 65536 % 256, qtOne.height / 16777216 % 256] ++ s ∧
      NodeStreamOf treeOne s :=
  c5_format qtOne treeOne rfl (WellShaped.leaf _ _)

/-- A node stream corrupted by an invalid tag byte (spec §7), as claim C6
words it: at some position where the decoder expects a leaf/interior tag, the
stream holds a byte that is neither tag value.  The corruption may sit at the
root's tag or at any child's tag reached after validly encoded earlier
siblings. -/
inductive BadStreamOf : RegionNodeQt → List Nat → Prop where
  | badTag (t : RegionNodeQt) (tag : Nat) (rest : List Nat) :
      ¬tag = 0 → ¬tag = 1 → BadStreamOf t (tag :: rest)
  | child0 (d : Color) (b : BoundingBox) {t0 t1 t2 t3 : RegionNodeQt}
      {s : List Nat} : BadStreamOf t0 s →
      BadStreamOf (.mk d b (some t0) (some t1) (some t2) (some t3)) (0 :: s)
  | child1 (d : Color) (b : BoundingBox) {t0 t1 t2 t3 : RegionNodeQt}
      {s : List Nat} : BadStreamOf t1 s →
      BadStreamOf (.mk d b (some t0) (some t1) (some t2) (some t3))
        (0 :: (encodeNode t0 ++ s))
  | child2 (d : Color) (b : BoundingBox) {t0 t1 t2 t3 : RegionNodeQt}
      {s : List Nat} : BadStreamOf t2 s →
      BadStreamOf (.mk d b (some t0) (some t1) (some t2) (some t3))
        (0 :: (encodeNode t0 ++ encodeNode t1 ++ s))
  | child3 (d : Color) (b : BoundingBox) {t0 t1 t2 t3 : RegionNodeQt}
      {s : List Nat} : BadStreamOf t3 s →
      BadStreamOf (.mk d b (some t0) (some t1) (some t2) (some t3))
        (0 :: (encodeNode t0 ++ encodeNode t1 ++ encodeNode t2 ++ s))

/-- Decoding a stream with an invalid tag byte at a reachable tag position
fails, whatever box it is decoded against. -/
theorem decodeNode_bad_stream {t : RegionNodeQt} {s : List Nat}
    (hbad : BadStreamOf t s) :
    ∀ {b : BoundingBox}, WellShaped t → BoxesFrom b t →
      decodeNodeV b s = none := by
  induction hbad with
  | badTag t tag rest h0 h1 =>
    intro b hs hb
    exact decodeNodeV_badTag b rest h1 h0
  | child0 d bb hb0bad ih =>
    intro b hs hb
    cases hs with
    | node _ hs0 hs1 hs2 hs3 =>
      cases hb with
      | node _ _ hbx0 hbx1 hbx2 hbx3 =>
        rw [decodeNodeV_tag0]
        rw [ih hs0 hbx0]
        rfl
  | child1 d bb hb1bad ih =>
    intro b hs hb
    cases hs with
    | node _ hs0 hs1 hs2 hs3 =>
      cases hb with
      | node _ _ hbx0 hbx1 hbx2 hbx3 =>
        rw [decodeNodeV_tag0]
        rw [decode_encode hs0 hbx0]
        simp only [Option.some_bind]
        rw [ih hs1 hbx1]
        rfl
  | child2 d bb hb2bad ih =>
    intro b hs hb
    cases hs with
    | node _ hs0 hs1 hs2 hs3 =>
      cases hb with
      | node _ _ hbx0 hbx1 hbx2 hbx3 =>
        rw [decodeNodeV_tag0]
        simp only [List.append_assoc]
        rw [decode_encode hs0 hbx0]
        simp only [Option.some_bind]
        rw [decode_encode hs1 hbx1]
        simp only [Option.some_bind]
        rw [ih hs2 hbx2]
        rfl
  | child3 d bb hb3bad ih =>
    intro b hs hb
    cases hs with
    | node _ hs0 hs1 hs2 hs3 =>
      cases hb with
      | node _ _ hbx0 hbx1 hbx2 hbx3 =>
        rw [decodeNodeV_tag0]
        simp only [List.append_assoc]
        rw [decode_encode hs0 hbx0]
        simp only [Option.some_bind]
        rw [decode_encode hs1 hbx1]
        simp only [Option.some_bind]
        rw [decode_encode hs2 hbx2]
        simp only [Option.some_bind]
        rw [ih hs3 hbx3]
        rfl

/-- A header followed by a tag-corrupted node stream decodes to
`CorruptData`. -/
theorem fromBytes_invalid_tag {T : RegionQt} {t : RegionNodeQt}
    (hroot : T.root = some t) (hs : WellShaped t)
    (hb : BoxesFrom (rootBox T.width T.height) t)
    (hw : T.width < 4294967296) (hh : T.height < 4294967296)
    {s : List Nat} (hbad : BadStreamOf t s) :
    fromBytes (u32le T.width ++ u32le T.height ++ s) =
      Except.error CodecError.CorruptData := by
  obtain ⟨root, w, h⟩ := T
  simp only at hroot hb hw hh
  subst hroot
  have hv := decodeNode_bad_stream hbad hs hb
  have hd : decodeNode (rootBox w h) s = none := by
    rw [decodeNodeV] at hv
    cases hdd : decodeNode (rootBox w h) s with
    | none => rfl
    | some p => rw [hdd] at hv; cases hv
  simp only [u32le, List.cons_append, List.nil_append]
  rw [fromBytes]
  have hww : (w % 256) + 256 * (w / 256 % 256) + 65536 * (w / 65536 % 256)
      + 16777216 * (w / 16777216 % 256) = w := by omega
  have hhh : (h % 256) + 256 * (h / 256 % 256) + 65536 * (h / 65536 % 256)
      + 16777216 * (h / 16777216 % 256) = h := by omega
  simp only [hww, hhh, hd]

/-- C6: decoding a truncated or corrupted buffer fails with `CorruptData` and
never yields a partial tree, covering both corruption kinds of spec §7: every
strict prefix of a valid encoding (truncation anywhere, e.g. a header whose
node stream is cut mid-tag) decodes to `CorruptData`, and so does a header
followed by a node stream holding an invalid tag byte at any position where a
tag is read; the decoder is a total function into `Except`, so it never
panics. -/
theorem c6_corrupt_decode {T : RegionQt} {t : RegionNodeQt}
    (hroot : T.root = some t) (hs : WellShaped t)
    (hb : BoxesFrom (rootBox T.width T.height) t)
    (hw : T.width < 4294967296) (hh : T.height < 4294967296) :
    (∀ (p u : List Nat), toBytes T = p ++ u → u ≠ [] →
      fromBytes p = Except.error CodecError.CorruptData) ∧
    (∀ s : List Nat, BadStreamOf t s →
      fromBytes (u32le T.width ++ u32le T.height ++ s) =
        Except.error CodecError.CorruptData) :=
  ⟨fun _ _ hsplit hu => fromBytes_truncated hroot hs hb hw hh hsplit hu,
   fun _ hbad => fromBytes_invalid_tag hroot hs hb hw hh hbad⟩

theorem c6_corrupt_decode_witness :
    fromBytes [1, 0, 0, 0, 1, 0, 0, 0] =
      Except.error CodecError.CorruptData ∧
    fromBytes [1, 0, 0, 0, 1, 0, 0, 0, 2] =
      Except.error CodecError.CorruptData := by
  have hc := @c6_corrupt_decode qtOne treeOne rfl (WellShaped.leaf _ _)
    (BoxesFrom.leaf _ _) (by decide) (by decide)
  exact ⟨hc.1 [1, 0, 0, 0, 1, 0, 0, 0] [1, 10, 20, 30, 255] rfl (by decide),
    hc.2 [2] (BadStreamOf.badTag treeOne 2 [] (by decide) (by decide))⟩

/-- C7 counterexample: with `min = (0, 5)` and `max = (1, 3)` we have
`min.y > max.y`, yet `BoundingBox::new` succeeds — the derived `PartialOrd`
comparison `min <= max` is lexicographic, not component-wise, so the claimed
assertion fault does not occur. -/
theorem c7_new_assert_counterexample :
    3 < 5 ∧ BoundingBox.new { x := 0, y := 5 } { x := 1, y := 3 } =
      some { min := { x := 0, y := 5 }, max := { x := 1, y := 3 } } := by
  decide

/-- C7 (amended): `BoundingBox::new` succeeds iff `min` is lexicographically
at most `max` (`min.x < max.x`, or `min.x = max.x` with `min.y ≤ max.y`), and
fails with the assertion fault exactly when `max.x < min.x`, or
`min.x = max.x` with `max.y < min.y`. -/
theorem c7_new_assert_lexicographic (pmin pmax : Point) :
    (BoundingBox.new pmin pmax = some { min := pmin, max := pmax } ↔
      (pmin.x < pmax.x ∨ (pmin.x = pmax.x ∧ pmin.y ≤ pmax.y))) ∧
    (BoundingBox.new pmin pmax = none ↔
      (pmax.x < pmin.x ∨ (pmin.x = pmax.x ∧ pmax.y < pmin.y))) := by
  have hlex : Point.lexLe pmin pmax = true ↔
      (pmin.x < pmax.x ∨ (pmin.x = pmax.x ∧ pmin.y ≤ pmax.y)) := by
    rw [Point.lexLe]
    simp
  rw [BoundingBox.new]
  by_cases hle : Point.lexLe pmin pmax = true
  · have hp := hlex.mp hle
    rw [if_pos hle]
    exact ⟨⟨fun _ => hp, fun _ => rfl⟩,
      ⟨fun habs => (by cases habs), fun hr => (by omega)⟩⟩
  · have hnp : ¬(pmin.x < pmax.x ∨ (pmin.x = pmax.x ∧ pmin.y ≤ pmax.y)) :=
      fun hc => hle (hlex.mpr hc)
    rw [if_neg hle]
    exact ⟨⟨fun habs => (by cases habs), fun hr => absurd hr hnp⟩,
      ⟨fun _ => (by omega), fun _ => rfl⟩⟩

/-- C8: every node of a built tree has either all four children absent (a
leaf, whose data is a resolved `Data` color and never `Gray`) or all four
children present (an interior node, whose data is the `Gray` sentinel and
never `Data`) — the `WellShaped` discipline. -/
theorem c8_node_shape (img : Image) (t : RegionNodeQt)
    (hroot : (build img).root = some t) : WellShaped t := by
  have h : (build img).root =
      some (update img (rootBox img.width img.height)) := rfl
  rw [hroot] at h
  rw [Option.some.inj h]
  exact wellShaped_update img _

theorem c8_node_shape_witness : WellShaped treeFour :=
  c8_node_shape imgFour treeFour build_imgFour_root

/-- C9: the line extraction of a built tree is the pre-order sequence in which
every interior node emits exactly its two split segments — vertical
`(center.x, min.y)..(center.x, max.y)` then horizontal
`(min.x, center.y)..(max.x, center.y)` — and leaves emit nothing; a tree whose
root is a single leaf yields the empty sequence. -/
theorem c9_lines_preorder (T : RegionQt) (t : RegionNodeQt)
    (hroot : T.root = some t) (hs : WellShaped t) :
    getLines T = linesSpec t ∧ (t.isLeaf = true → getLines T = []) := by
  have hg : getLines T = linesAcc t [] := by
    rw [getLines.eq_def, hroot]
  refine ⟨?_, ?_⟩
  · rw [hg, linesAcc_spec hs, List.nil_append]
  · intro hleaf
    rw [hg]
    cases hs with
    | leaf c b => rw [linesAcc_leaf]
    | node b h0 h1 h2 h3 => simp [RegionNodeQt.isLeaf] at hleaf

theorem c9_lines_preorder_witness :
    getLines qtOne = linesSpec treeOne ∧
      (treeOne.isLeaf = true → getLines qtOne = []) :=
  c9_lines_preorder qtOne treeOne rfl (WellShaped.leaf _ _)

/-- C10: when `build` subdivides a box of width 1 (resp. height 1), the
children at indices 0 and 2 (resp. 2 and 3) get empty boxes with
`min.x = max.x` (resp. `min.y = max.y`); the homogeneity scan over such an
empty box trivially succeeds, so each such child becomes a leaf storing the
image pixel at its box's min corner — a pixel that lies outside the empty
half-open box, which contains no pixel at all. -/
theorem c10_degenerate_children (img : Image) (b : BoundingBox)
    (hGray : calculate_color img b = Color.Gray) :
    (b.max.x = b.min.x + 1 →
      ∀ i : Fin 4, (i = 0 ∨ i = 2) →
        (childBox b i).min.x = (childBox b i).max.x ∧
        update img (childBox b i) = RegionNodeQt.mk
          (Color.Data (img.pix (childBox b i).min.x (childBox b i).min.y))
          (childBox b i) none none none none ∧
        (∀ x y : Nat,
          ¬((childBox b i).min.x ≤ x ∧ x < (childBox b i).max.x ∧
            (childBox b i).min.y ≤ y ∧ y < (childBox b i).max.y))) ∧
    (b.max.y = b.min.y + 1 →
      ∀ i : Fin 4, (i = 2 ∨ i = 3) →
        (childBox b i).min.y = (childBox b i).max.y ∧
        update img (childBox b i) = RegionNodeQt.mk
          (Color.Data (img.pix (childBox b i).min.x (childBox b i).min.y))
          (childBox b i) none none none none ∧
        (∀ x y : Nat,
          ¬((childBox b i).min.x ≤ x ∧ x < (childBox b i).max.x ∧
            (childBox b i).min.y ≤ y ∧ y < (childBox b i).max.y))) := by
  constructor
  · intro hw i hi
    rcases hi with h | h <;> subst h
    · have heq : (childBox b 0).min.x = (childBox b 0).max.x := by
        simp only [childBox, BoundingBox.center, Point.add, Point.divNat]
        omega
      have hp := empty_child_props img (childBox b 0) (Or.inl (by omega))
      exact ⟨heq, hp.1, hp.2⟩
    · have heq : (childBox b 2).min.x = (childBox b 2).max.x := by
        simp only [childBox, BoundingBox.center, Point.add, Point.divNat]
        omega
      have hp := empty_child_props img (childBox b 2) (Or.inl (by omega))
      exact ⟨heq, hp.1, hp.2⟩
  · intro hh i hi
    rcases hi with h | h <;> subst h
    · have heq : (childBox b 2).min.y = (childBox b 2).max.y := by
        simp only [childBox, BoundingBox.center, Point.add, Point.divNat]
        omega
      have hp := empty_child_props img (childBox b 2) (Or.inr (by omega))
      exact ⟨heq, hp.1, hp.2⟩
    · have heq : (childBox b 3).min.y = (childBox b 3).max.y := by
        simp only [childBox, BoundingBox.center, Point.add, Point.divNat]
        omega
      have hp := empty_child_props img (childBox b 3) (Or.inr (by omega))
      exact ⟨heq, hp.1, hp.2⟩

theorem c10_degenerate_children_witness :
    (childBox (rootBox 1 2) 0).min.x = (childBox (rootBox 1 2) 0).max.x ∧
    update imgTall (childBox (rootBox 1 2) 0) = RegionNodeQt.mk
      (Color.Data (imgTall.pix (childBox (rootBox 1 2) 0).min.x
        (childBox (rootBox 1 2) 0).min.y))
      (childBox (rootBox 1 2) 0) none none none none ∧
    (∀ x y : Nat,
      ¬((childBox (rootBox 1 2) 0).min.x ≤ x ∧
        x < (childBox (rootBox 1 2) 0).max.x ∧
        (childBox (rootBox 1 2) 0).min.y ≤ y ∧
        y < (childBox (rootBox 1 2) 0).max.y)) :=
  (c10_degenerate_children imgTall (rootBox 1 2) (by decide)).1
    (by decide) 0 (Or.inl rfl)

end RegionQtModel
